import Mathlib

/-!
Verification development for the AIWC (Architecture-Independent Workload
Characterisation) plugin `WorkloadCharacterisation.cpp` of Oclgrind.

The plugin's data model and the computations of `kernelEnd`,
`workGroupComplete`, the host-transfer tracker and the destructor are embedded
shallowly:

* the C++ `std::unordered_map<K, count>` histograms are embedded as the
  multiset (a `List`) of their key-occurrences; a map entry `(k, c)` is
  recovered as `l.count k` for `k ∈ l.dedup`;
* `m_branchOps : unordered_map<unsigned, vector<bool>>` is embedded as a
  support list of branch lines together with a function from lines to the
  recorded boolean sequence;
* IEEE doubles are idealised as exact rationals; divisions that can produce
  non-finite doubles return an `FVal` (finite value, signed infinity, or NaN);
* dereferencing the `end()` iterator of an empty container and the
  out-of-range index `v[size/2 - 1]` on an empty vector (both reachable in
  `kernelEnd` for an empty invocation) are undefined behaviour; the embedded
  report is therefore an `Option`, `none` exactly when `kernelEnd` would
  perform such an access.
-/

set_option maxRecDepth 4000

/-- Result of an IEEE double division in the report: a finite rational (rounding
idealised away), a signed infinity, or NaN. -/
inductive FVal where
  | fin : ℚ → FVal
  | pinf : FVal
  | ninf : FVal
  | nan : FVal
deriving DecidableEq, Repr

/-- IEEE division as the report performs it: `x/0` is NaN when `x = 0` and a
signed infinity otherwise; otherwise the exact quotient. -/
def divF (x y : ℚ) : FVal :=
  if y = 0 then (if x = 0 then FVal.nan else if 0 < x then FVal.pinf else FVal.ninf)
  else FVal.fin (x / y)

/-- `(unsigned)ceil(n * 0.9)`, the 90%-coverage threshold used by `kernelEnd`,
written as the integer form `(9n + 9) / 10`; `ceil90_is_ceil` below proves it is
exactly the ceiling of `9n/10`. -/
def ceil90 (n : ℕ) : ℕ := (9 * n + 9) / 10

/-- The coverage loop `while (acc < target) { acc += s[i]; i++; }`: how many
leading entries of `s` are consumed before the running sum reaches the target.
(The loop would run off the end if the target exceeded the total; `kernelEnd`
only calls it with `target = ceil90 total ≤ total`.) -/
def coverCount : List ℕ → ℕ → ℕ
  | _, 0 => 0
  | [], _ + 1 => 0
  | x :: xs, t + 1 => 1 + coverCount xs (t + 1 - x)

/-- Occurrence counts of the distinct elements of `l` (the entries of the
`unordered_map` built from `l`), sorted descending as `partial_sort_copy` with
a `second >`-comparator produces them. -/
def sortedCountsDesc {α : Type} [DecidableEq α] (l : List α) : List ℕ :=
  (l.dedup.map (fun x => l.count x)).insertionSort (· ≥ ·)

/-- `std::sort` on a vector of unsigned ints. -/
def sortedAsc (l : List ℕ) : List ℕ := l.insertionSort (· ≤ ·)

/-- The median rule of `kernelEnd`: sort ascending, then `(a[n/2-1] + a[n/2]) / 2`
in integer arithmetic for even `n` and `a[n/2]` for odd `n`.  `none` exactly for
the empty vector, where `a[0/2 - 1]` is the out-of-range access `a[SIZE_MAX]`. -/
def medianCpp (l : List ℕ) : Option ℕ :=
  if l.length % 2 = 0 then
    match (sortedAsc l).get? (l.length / 2 - 1), (sortedAsc l).get? (l.length / 2) with
    | some a, some b => some ((a + b) / 2)
    | _, _ => none
  else (sortedAsc l).get? (l.length / 2)

/-- Oclgrind address-space tags (OpenCL SPIR numbering). -/
def AddrSpacePrivate : ℕ := 0

def AddrSpaceGlobal : ℕ := 1

def AddrSpaceConstant : ℕ := 2

def AddrSpaceLocal : ℕ := 3

/-- The invocation-wide aggregate owned by the plugin (the `m_` members that
`workGroupComplete` merges into and `kernelEnd` reads). -/
structure Aggregate where
  memoryOps : List ℕ
  computeOps : List String
  branchSupport : List ℕ
  branchSeq : ℕ → List Bool
  instructionsToBarrier : List ℕ
  instructionWidth : List ℕ
  instructionsPerWorkitem : List ℕ
  instructionsBetweenLoadOrStore : List ℕ
  loadInstructionLabels : List String
  storeInstructionLabels : List String
  threadsInvoked : ℕ
  barriersHit : ℕ
  globalMemAccess : ℕ
  localMemAccess : ℕ
  constantMemAccess : ℕ

/-- The state `kernelBegin` leaves behind: every invocation-scoped container
cleared and every scalar counter zeroed (lines 766-779). -/
def kernelBeginAggregate : Aggregate where
  memoryOps := []
  computeOps := []
  branchSupport := []
  branchSeq := fun _ => []
  instructionsToBarrier := []
  instructionWidth := []
  instructionsPerWorkitem := []
  instructionsBetweenLoadOrStore := []
  loadInstructionLabels := []
  storeInstructionLabels := []
  threadsInvoked := 0
  barriersHit := 0
  globalMemAccess := 0
  localMemAccess := 0
  constantMemAccess := 0

/-- The trailing reset of `kernelEnd` (lines 1168-1176): it clears
`m_memoryOps`, `m_computeOps`, `m_branchOps`, `m_instructionsToBarrier`,
`m_instructionsPerWorkitem`, `m_threads_invoked`,
`m_instructionsBetweenLoadOrStore`, `m_loadInstructionLabels` and
`m_storeInstructionLabels` - and nothing else. -/
def kernelEndReset (a : Aggregate) : Aggregate :=
  { a with
    memoryOps := []
    computeOps := []
    branchSupport := []
    branchSeq := fun _ => []
    instructionsToBarrier := []
    instructionsPerWorkitem := []
    threadsInvoked := 0
    instructionsBetweenLoadOrStore := []
    loadInstructionLabels := []
    storeInstructionLabels := [] }

/-- The thread-local `WorkerState` (containers merged at `workGroupComplete`
plus the transient per-work-item counters). -/
structure Worker where
  memoryOps : List ℕ
  computeOps : List String
  branchSupport : List ℕ
  branchSeq : ℕ → List Bool
  instructionsBetweenBarriers : List ℕ
  instructionWidth : List ℕ
  instructionsPerWorkitem : List ℕ
  instructionsBetweenLoadOrStore : List ℕ
  loadInstructionLabels : List String
  storeInstructionLabels : List String
  threadsInvoked : ℕ
  barriersHit : ℕ
  globalMemAccess : ℕ
  localMemAccess : ℕ
  constantMemAccess : ℕ
  instructionCount : ℕ
  workitemInstructionCount : ℕ
  opsBetweenLoadOrStore : ℕ

/-- `workGroupBegin`: all worker containers cleared, all scalars zeroed. -/
def workGroupBeginWorker : Worker where
  memoryOps := []
  computeOps := []
  branchSupport := []
  branchSeq := fun _ => []
  instructionsBetweenBarriers := []
  instructionWidth := []
  instructionsPerWorkitem := []
  instructionsBetweenLoadOrStore := []
  loadInstructionLabels := []
  storeInstructionLabels := []
  threadsInvoked := 0
  barriersHit := 0
  globalMemAccess := 0
  localMemAccess := 0
  constantMemAccess := 0
  instructionCount := 0
  workitemInstructionCount := 0
  opsBetweenLoadOrStore := 0

/-- `workGroupComplete` (lines 1219-1267): fold one worker's state into the
invocation aggregate.  Sequences are appended, histograms are merged by
summation (multiset union), the per-line branch traces are appended per line,
and the scalar counters are summed. -/
def workGroupComplete (a : Aggregate) (w : Worker) : Aggregate where
  memoryOps := a.memoryOps ++ w.memoryOps
  computeOps := a.computeOps ++ w.computeOps
  branchSupport :=
    a.branchSupport ++ w.branchSupport.filter (fun k => decide (k ∉ a.branchSupport))
  branchSeq := fun k =>
    a.branchSeq k ++ (if k ∈ w.branchSupport then w.branchSeq k else [])
  instructionsToBarrier := a.instructionsToBarrier ++ w.instructionsBetweenBarriers
  instructionWidth := a.instructionWidth ++ w.instructionWidth
  instructionsPerWorkitem := a.instructionsPerWorkitem ++ w.instructionsPerWorkitem
  instructionsBetweenLoadOrStore :=
    a.instructionsBetweenLoadOrStore ++ w.instructionsBetweenLoadOrStore
  loadInstructionLabels := a.loadInstructionLabels ++ w.loadInstructionLabels
  storeInstructionLabels := a.storeInstructionLabels ++ w.storeInstructionLabels
  threadsInvoked := a.threadsInvoked + w.threadsInvoked
  barriersHit := a.barriersHit + w.barriersHit
  globalMemAccess := a.globalMemAccess + w.globalMemAccess
  localMemAccess := a.localMemAccess + w.localMemAccess
  constantMemAccess := a.constantMemAccess + w.constantMemAccess

/-- The invocation aggregate after all work-groups completed, in the order the
workers reached `workGroupComplete`. -/
def mergeAll (ws : List Worker) : Aggregate := ws.foldl workGroupComplete kernelBeginAggregate

/-! ### The report builder of `kernelEnd` -/

/-- `total_instruction_count`: the sum of all opcode counts (line 808-813). -/
def totalInstructionCount (a : Aggregate) : ℕ := a.computeOps.length

/-- `major_operations`: number of opcodes needed to cover 90% of dynamic
instructions (lines 811-823). -/
def majorOperations (a : Aggregate) : ℕ :=
  coverCount (sortedCountsDesc a.computeOps) (ceil90 (totalInstructionCount a))

/-- `freedom_to_reorder` (lines 838-839): the accumulated sum of
`m_instructionsBetweenLoadOrStore` divided by its size; `0.0/0` (NaN) when the
sequence is empty - there is no emptiness guard in the code. -/
def freedomToReorder (a : Aggregate) : FVal :=
  divF (a.instructionsBetweenLoadOrStore.sum : ℚ) (a.instructionsBetweenLoadOrStore.length : ℚ)

/-- `resource_pressure` (lines 843-848): total load- and store-label counts
divided by the number of work-items. -/
def resourcePressure (a : Aggregate) : FVal :=
  divF ((a.storeInstructionLabels.length + a.loadInstructionLabels.length : ℕ) : ℚ)
    (a.threadsInvoked : ℚ)

/-- `granularity = 1.0 / m_threads_invoked` (line 857). -/
def granularity (a : Aggregate) : FVal := divF 1 (a.threadsInvoked : ℚ)

/-- `barriers_per_instruction` (line 879). -/
def barriersPerInstruction (a : Aggregate) : FVal :=
  divF ((a.barriersHit + a.threadsInvoked : ℕ) : ℚ) (totalInstructionCount a : ℚ)

/-- `simd_sum = Σ width·count` over the SIMD-width histogram (lines 910-915);
in the multiset embedding this is the sum of the recorded widths. -/
def simdSum (a : Aggregate) : ℕ := a.instructionWidth.sum

/-- `simd_num = Σ count` over the SIMD-width histogram. -/
def simdNum (a : Aggregate) : ℕ := a.instructionWidth.length

/-- `simd_mean = simd_sum / simd_num` (line 916). -/
def simdMean (a : Aggregate) : FVal := divF (simdSum a : ℚ) (simdNum a : ℚ)

/-- The population variance `simd_sq_sum / simd_num` whose square root the code
prints as `simd_stdev` (lines 917-920). -/
def simdVariance (a : Aggregate) : FVal :=
  divF
    ((a.instructionWidth.dedup.map (fun k =>
      (a.instructionWidth.count k : ℚ) *
        ((k : ℚ) - (simdSum a : ℚ) / (simdNum a : ℚ)) ^ 2)).sum)
    (simdNum a : ℚ)

/-- `instructions_per_operand` (line 924). -/
def instructionsPerOperand (a : Aggregate) : FVal :=
  divF (totalInstructionCount a : ℚ) (simdSum a : ℚ)

/-- `memory_access_count`: the sum of the k=0 address histogram counts
(lines 949-953), which equals `len(memoryOps)`. -/
def memoryAccessCount (a : Aggregate) : ℕ := (sortedCountsDesc a.memoryOps).sum

/-- `local_address_count[0].size()`: number of distinct addresses (line 957). -/
def totalMemoryFootprint (a : Aggregate) : ℕ := a.memoryOps.dedup.length

/-- `unique_memory_addresses`: length of the smallest descending-count prefix
covering 90% of memory accesses (lines 959-968). -/
def ninetyPctFootprint (a : Aggregate) : ℕ :=
  coverCount (sortedCountsDesc a.memoryOps) (ceil90 (memoryAccessCount a))

/-- `(local / (global+local+constant)) * 100` (line 1019). -/
def relativeLocalUsage (a : Aggregate) : FVal :=
  divF ((100 * a.localMemAccess : ℕ) : ℚ)
    ((a.globalMemAccess + a.localMemAccess + a.constantMemAccess : ℕ) : ℚ)

/-- `(constant / (global+local+constant)) * 100` (line 1021). -/
def relativeConstantUsage (a : Aggregate) : FVal :=
  divF ((100 * a.constantMemAccess : ℕ) : ℚ)
    ((a.globalMemAccess + a.localMemAccess + a.constantMemAccess : ℕ) : ℚ)

/-- The recorded boolean sequences of all branch lines. -/
def branchSeqs (a : Aggregate) : List (List Bool) := a.branchSupport.map a.branchSeq

/-- `branch_op_count`: total number of recorded branch outcomes (line 1039-1043). -/
def totalBranchOpCount (a : Aggregate) : ℕ := ((branchSeqs a).map List.length).sum

/-- `sorted_branch_ops.size()`: number of distinct branch lines (line 1156). -/
def uniqueBranchInstructions (a : Aggregate) : ℕ := a.branchSupport.length

/-- `unique_branch_addresses`: branches covering 90% of branch ops
(lines 1046-1053). -/
def ninetyPctBranches (a : Aggregate) : ℕ :=
  coverCount (((branchSeqs a).map List.length).insertionSort (· ≥ ·))
    (ceil90 (totalBranchOpCount a))

/-! ### Branch entropy (history window m = 16, lines 1060-1114) -/

/-- The sliding history windows of length `m`: a line with fewer than `m`
recorded branches is skipped, otherwise `size - (m-1)` windows are emitted. -/
def windowsM (m : ℕ) (l : List Bool) : List (List Bool) :=
  if l.length < m then []
  else (List.range (l.length - (m - 1))).map (fun i => (l.drop i).take m)

/-- `probability_of_taken = taken / (not_taken + taken)` for one pattern
(lines 1088-1090). -/
def patternTakenRate (pat : List Bool) : ℚ :=
  (pat.count true : ℚ) / ((pat.count false : ℚ) + (pat.count true : ℚ))

/-- `linear_branch_entropy = 2 * min(p, 1-p)` (line 1098). -/
def linearBranchEntropy (pat : List Bool) : ℚ :=
  2 * min (patternTakenRate pat) (1 - patternTakenRate pat)

/-- One line's contribution to `N`: the total of the occurrence counts of its
distinct window patterns (line 1100). -/
def lineWindowCount (l : List Bool) : ℕ :=
  ((windowsM 16 l).dedup.map (fun p => (windowsM 16 l).count p)).sum

/-- One line's contribution to the numerator of `average_entropy`:
`Σ occurrences * linear` over its distinct window patterns (line 1099). -/
def lineAvgLinearNum (l : List Bool) : ℚ :=
  ((windowsM 16 l).dedup.map (fun p =>
    ((windowsM 16 l).count p : ℚ) * linearBranchEntropy p)).sum

/-- `N` accumulated over all branch lines. -/
def branchEntropyN (a : Aggregate) : ℕ := ((branchSeqs a).map lineWindowCount).sum

/-- `average_entropy` after the final division and the NaN-coercion to 0
(lines 1103-1106). -/
def averageLinearBranchEntropy (a : Aggregate) : ℚ :=
  if branchEntropyN a = 0 then 0
  else ((branchSeqs a).map lineAvgLinearNum).sum / (branchEntropyN a : ℚ)

/-- One pattern's Yokota term `-p * log2 p`, guarded by `p != 0` (lines
1093-1096). -/
noncomputable def yokotaTerm (pat : List Bool) : ℝ :=
  if patternTakenRate pat = 0 then 0
  else -((patternTakenRate pat : ℝ) * Real.logb 2 ((patternTakenRate pat : ℝ)))

/-- One line's occurrence-weighted Yokota contribution (line 1094). -/
noncomputable def lineYokota (l : List Bool) : ℝ :=
  ((windowsM 16 l).dedup.map (fun p => ((windowsM 16 l).count p : ℝ) * yokotaTerm p)).sum

/-- One line's unweighted Yokota contribution (line 1095). -/
noncomputable def lineYokotaPerWorkload (l : List Bool) : ℝ :=
  ((windowsM 16 l).dedup.map (fun p => yokotaTerm p)).sum

/-- `yokota_entropy`: the occurrence-weighted sum over all lines. -/
noncomputable def yokotaEntropy (a : Aggregate) : ℝ := ((branchSeqs a).map lineYokota).sum

/-- `yokota_entropy_per_workload`: the unweighted sum over all lines. -/
noncomputable def yokotaEntropyPerWorkload (a : Aggregate) : ℝ :=
  ((branchSeqs a).map lineYokotaPerWorkload).sum

/-- The value printed by the stdout line `Yokota Branch Entropy:` (line 1109). -/
noncomputable def stdoutYokotaBranchEntropy (a : Aggregate) : ℝ := yokotaEntropy a

/-- The value written to the CSV row `branch entropy (yokota),` (line 1158):
it is `yokota_entropy_per_workload`, not `yokota_entropy`. -/
noncomputable def csvBranchEntropyYokota (a : Aggregate) : ℝ := yokotaEntropyPerWorkload a

/-- The value written to the CSV row `branch entropy (average linear),`
(line 1159). -/
def csvBranchEntropyAverageLinear (a : Aggregate) : ℚ := averageLinearBranchEntropy a

/-! ### Memory address entropy (lines 979-1004) -/

/-- `- Σ p log2 p` over the histogram of `l`, probabilities normalised by the
total access count `l.length`. -/
noncomputable def addrEntropy (l : List ℕ) : ℝ :=
  (l.dedup.map (fun x =>
    -(((l.count x : ℝ) / (l.length : ℝ)) * Real.logb 2 ((l.count x : ℝ) / (l.length : ℝ))))).sum

/-- `mem_entropy`, the k = 0 global memory address entropy (lines 979-984). -/
noncomputable def globalMemoryAddressEntropy (a : Aggregate) : ℝ := addrEntropy a.memoryOps

/-- `loc_entropy[nskip - 1]`: entropy of the histogram of addresses shifted
right by `nskip` bits, still normalised by `memory_access_count`
(lines 996-1004). -/
noncomputable def localMemoryAddressEntropy (a : Aggregate) (nskip : ℕ) : ℝ :=
  addrEntropy (a.memoryOps.map (fun x => x >>> nskip))

/-! ### The report record -/

/-- All metrics of the per-kernel report and CSV that are exact rational /
integer data (the real-valued entropies are the separate functions above;
`simd_stdev` is represented by `simdVariance`, its square). -/
structure ReportCore where
  majorOperations : ℕ
  totalInstructionCount : ℕ
  freedomToReorder : FVal
  resourcePressure : FVal
  workitems : ℕ
  granularity : FVal
  barriersHit : ℕ
  itbMin : WithTop ℕ
  itbMax : WithBot ℕ
  itbMedian : Option ℕ
  barriersPerInstruction : FVal
  iptMin : WithTop ℕ
  iptMax : WithBot ℕ
  iptMedian : Option ℕ
  simdMin : WithTop ℕ
  simdMax : WithBot ℕ
  simdSum : ℕ
  simdMean : FVal
  simdVariance : FVal
  instructionsPerOperand : FVal
  totalMemoryFootprint : ℕ
  memoryAccessCount : ℕ
  ninetyPctFootprint : ℕ
  globalMemAccesses : ℕ
  localMemAccesses : ℕ
  constantMemAccesses : ℕ
  relativeLocalUsage : FVal
  relativeConstantUsage : FVal
  uniqueBranchInstructions : ℕ
  ninetyPctBranches : ℕ
deriving DecidableEq

/-- The metric values `kernelEnd` derives, in source order.  `*min_element` /
`*max_element` of an empty range appear as `⊤` / `⊥` and an empty median as
`none`; `reportDefined` below records when none of these undefined accesses
happens. -/
def reportFields (a : Aggregate) : ReportCore where
  majorOperations := majorOperations a
  totalInstructionCount := totalInstructionCount a
  freedomToReorder := freedomToReorder a
  resourcePressure := resourcePressure a
  workitems := a.threadsInvoked
  granularity := granularity a
  barriersHit := a.barriersHit
  itbMin := a.instructionsToBarrier.minimum
  itbMax := a.instructionsToBarrier.maximum
  itbMedian := medianCpp a.instructionsToBarrier
  barriersPerInstruction := barriersPerInstruction a
  iptMin := a.instructionsPerWorkitem.minimum
  iptMax := a.instructionsPerWorkitem.maximum
  iptMedian := medianCpp a.instructionsPerWorkitem
  simdMin := a.instructionWidth.dedup.minimum
  simdMax := a.instructionWidth.dedup.maximum
  simdSum := simdSum a
  simdMean := simdMean a
  simdVariance := simdVariance a
  instructionsPerOperand := instructionsPerOperand a
  totalMemoryFootprint := totalMemoryFootprint a
  memoryAccessCount := memoryAccessCount a
  ninetyPctFootprint := ninetyPctFootprint a
  globalMemAccesses := a.globalMemAccess
  localMemAccesses := a.localMemAccess
  constantMemAccesses := a.constantMemAccess
  relativeLocalUsage := relativeLocalUsage a
  relativeConstantUsage := relativeConstantUsage a
  uniqueBranchInstructions := uniqueBranchInstructions a
  ninetyPctBranches := ninetyPctBranches a

/-- `kernelEnd` dereferences `end()` of `m_instructionsToBarrier`,
`m_instructionsPerWorkitem` or `m_instructionWidth` when empty (lines 864-865,
886-887, 907-908) and indexes `v[size/2 - 1] = v[SIZE_MAX]` in the median
computations (lines 873, 895): the report is only defined when all three are
non-empty. -/
def reportDefined (a : Aggregate) : Bool :=
  !a.instructionsToBarrier.isEmpty && !a.instructionsPerWorkitem.isEmpty &&
    !a.instructionWidth.isEmpty

/-- The whole `kernelEnd` report: `none` when the code runs into undefined
out-of-range accesses (empty invocation), otherwise the metric record. -/
def kernelEndReportCore (a : Aggregate) : Option ReportCore :=
  if reportDefined a then some (reportFields a) else none

/-! ### Host-transfer tracker (constructor, hostMemoryLoad/Store, kernelBegin) -/

/-- The plugin-lifetime transfer log: the two kernel-name lists, the pending
counter, and `m_last_kernel_name`. -/
structure HostState where
  hostToDeviceCopy : List String
  deviceToHostCopy : List String
  numberOfHostToDeviceCopiesBeforeKernelNamed : ℕ
  lastKernelName : String
deriving DecidableEq, Repr

/-- Constructor state (lines 539-542). -/
def initialHostState : HostState where
  hostToDeviceCopy := []
  deviceToHostCopy := []
  numberOfHostToDeviceCopiesBeforeKernelNamed := 0
  lastKernelName := ""

/-- `hostMemoryStore` (lines 602-606): push the last-known kernel name onto the
host-to-device list and bump the pending counter. -/
def hostMemoryStore (s : HostState) : HostState :=
  { s with
    hostToDeviceCopy := s.hostToDeviceCopy ++ [s.lastKernelName]
    numberOfHostToDeviceCopiesBeforeKernelNamed :=
      s.numberOfHostToDeviceCopiesBeforeKernelNamed + 1 }

/-- `hostMemoryLoad` (lines 597-600): push the last-named kernel onto the
device-to-host list. -/
def hostMemoryLoad (s : HostState) : HostState :=
  { s with deviceToHostCopy := s.deviceToHostCopy ++ [s.lastKernelName] }

/-- The relabeling loop of `kernelBegin` (lines 760-763): overwrite the last
`n` entries (`m_hostToDeviceCopy[end_of_list - i]`, `i < n`) with `name`. -/
def relabelTail (l : List String) (n : ℕ) (name : String) : List String :=
  l.take (l.length - n) ++ (l.drop (l.length - n)).map (fun _ => name)

/-- The host-transfer part of `kernelBegin` (lines 756-764). -/
def kernelBeginHost (s : HostState) (name : String) : HostState where
  hostToDeviceCopy :=
    relabelTail s.hostToDeviceCopy s.numberOfHostToDeviceCopiesBeforeKernelNamed name
  deviceToHostCopy := s.deviceToHostCopy
  numberOfHostToDeviceCopiesBeforeKernelNamed := 0
  lastKernelName := name

/-- The host-visible events in program order. -/
inductive HostEvent where
  | hostStore : HostEvent
  | hostLoad : HostEvent
  | kBegin : String → HostEvent
  | kEnd : HostEvent
deriving DecidableEq, Repr

/-- One host event (`kernelEnd` leaves the transfer log untouched). -/
def hostStep (s : HostState) : HostEvent → HostState
  | HostEvent.hostStore => hostMemoryStore s
  | HostEvent.hostLoad => hostMemoryLoad s
  | HostEvent.kBegin n => kernelBeginHost s n
  | HostEvent.kEnd => s

/-- Run a host event sequence from plugin construction. -/
def runHost (es : List HostEvent) : HostState := es.foldl hostStep initialHostState

/-! ### Destructor: the transfers CSV (lines 544-591) -/

/-- `std::unique` without a preceding sort: collapse ADJACENT runs of equal
entries only; a name recurring non-adjacently stays duplicated. -/
def uniqueConsecutive : List String → List String
  | [] => []
  | [x] => [x]
  | x :: y :: t =>
    if x = y then uniqueConsecutive (y :: t) else x :: uniqueConsecutive (y :: t)

/-- The CSV rows the destructor writes for one direction (lines 585-590): one
row `(metric, kernel, std::count(list, kernel))` per entry of the
`std::unique`-compacted list. -/
def transferRows (metric : String) (l : List String) : List (String × String × ℕ) :=
  (uniqueConsecutive l).map (fun k => (metric, k, l.count k))

/-! ### Worker-local event handling -/

/-- What the instruction handle exposes for a Load/Store instruction: which of
the two it is, the textual pointer-operand label, and the pointer's address
space. -/
structure MemAccessInfo where
  isStore : Bool
  label : String
  addressSpace : ℕ
deriving DecidableEq, Repr

/-- `instructionExecuted` (lines 632-732) for a non-branch instruction: count
the opcode, classify a Load/Store by address space, maintain the
reorder-distance counter and the label maps, and record the SIMD width.
(The conditional-branch trace recording, which needs the next instruction's
parent block, is modelled at the aggregate level via `branchSeq`.) -/
def instructionExecuted (w : Worker) (op : String) (width : ℕ)
    (mem : Option MemAccessInfo) : Worker :=
  let w1 := { w with computeOps := w.computeOps ++ [op] }
  let w2 :=
    match mem with
    | some m =>
      if m.addressSpace = AddrSpaceLocal then
        { w1 with localMemAccess := w1.localMemAccess + 1 }
      else if m.addressSpace = AddrSpaceGlobal then
        { w1 with globalMemAccess := w1.globalMemAccess + 1 }
      else if m.addressSpace = AddrSpaceConstant then
        { w1 with constantMemAccess := w1.constantMemAccess + 1 }
      else w1
    | none => w1
  let w3 :=
    match mem with
    | some m =>
      if m.isStore then
        { w2 with
          storeInstructionLabels := w2.storeInstructionLabels ++ [m.label]
          instructionsBetweenLoadOrStore :=
            w2.instructionsBetweenLoadOrStore ++ [w2.opsBetweenLoadOrStore + 1]
          opsBetweenLoadOrStore := 0 }
      else
        { w2 with
          loadInstructionLabels := w2.loadInstructionLabels ++ [m.label]
          instructionsBetweenLoadOrStore :=
            w2.instructionsBetweenLoadOrStore ++ [w2.opsBetweenLoadOrStore + 1]
          opsBetweenLoadOrStore := 0 }
    | none => { w2 with opsBetweenLoadOrStore := w2.opsBetweenLoadOrStore + 1 }
  { w3 with
    instructionCount := w3.instructionCount + 1
    workitemInstructionCount := w3.workitemInstructionCount + 1
    instructionWidth := w3.instructionWidth ++ [width] }

/-- The per-work-item events a worker observes. -/
inductive WEvent where
  | workItemBegin : WEvent
  | instruction : String → ℕ → Option MemAccessInfo → WEvent
  | workItemBarrier : WEvent
  | workItemClearBarrier : WEvent
  | workItemComplete : WEvent
  | memoryOp : ℕ → ℕ → WEvent

/-- One worker event (lines 608-618, 734-754). -/
def workItemStep (w : Worker) : WEvent → Worker
  | WEvent.workItemBegin =>
    { w with
      threadsInvoked := w.threadsInvoked + 1
      instructionCount := 0
      workitemInstructionCount := 0
      opsBetweenLoadOrStore := 0 }
  | WEvent.instruction op width mem => instructionExecuted w op width mem
  | WEvent.workItemBarrier =>
    { w with
      barriersHit := w.barriersHit + 1
      instructionsBetweenBarriers := w.instructionsBetweenBarriers ++ [w.instructionCount]
      instructionCount := 0 }
  | WEvent.workItemClearBarrier => { w with instructionCount := 0 }
  | WEvent.workItemComplete =>
    { w with
      instructionsBetweenBarriers := w.instructionsBetweenBarriers ++ [w.instructionCount]
      instructionsPerWorkitem := w.instructionsPerWorkitem ++ [w.workitemInstructionCount] }
  | WEvent.memoryOp space addr =>
    if space ≠ AddrSpacePrivate then { w with memoryOps := w.memoryOps ++ [addr] } else w

/-- Run a worker's event stream from `workGroupBegin`. -/
def runWorker (es : List WEvent) : Worker := es.foldl workItemStep workGroupBeginWorker

/-! ### Helper lemmas -/

theorem dedup_toFinset_eq {α : Type} [DecidableEq α] (l : List α) :
    l.dedup.toFinset = l.toFinset :=
  Finset.ext (fun a => by simp)

theorem sum_dedup_count_smul {α M : Type} [DecidableEq α] [AddCommMonoid M]
    (l : List α) (f : α → M) :
    (l.dedup.map (fun x => l.count x • f x)).sum = (l.map f).sum := by
  rw [← List.sum_toFinset _ l.nodup_dedup, dedup_toFinset_eq,
    Finset.sum_list_map_count l f]

theorem sum_dedup_count_eq_length {α : Type} [DecidableEq α] (l : List α) :
    (l.dedup.map (fun x => l.count x)).sum = l.length := by
  rw [← List.sum_toFinset _ l.nodup_dedup, dedup_toFinset_eq]
  exact List.sum_toFinset_count_eq_length l

theorem perm_flatten_outer {α : Type} {l1 l2 : List (List α)} (h : l1.Perm l2) :
    l1.flatten.Perm l2.flatten := by
  induction h with
  | nil => exact List.Perm.refl _
  | cons x _ ih => simpa using ih.append_left x
  | swap x y l =>
    simp only [List.flatten_cons, ← List.append_assoc]
    exact List.perm_append_comm.append_right l.flatten
  | trans _ _ ih1 ih2 => exact ih1.trans ih2

theorem minimum_perm {l1 l2 : List ℕ} (h : l1.Perm l2) : l1.minimum = l2.minimum := by
  induction h with
  | nil => rfl
  | cons x _ ih => rw [List.minimum_cons, List.minimum_cons, ih]
  | swap x y l =>
    rw [List.minimum_cons, List.minimum_cons, List.minimum_cons, List.minimum_cons]
    exact min_left_comm _ _ _
  | trans _ _ ih1 ih2 => exact ih1.trans ih2

theorem maximum_perm {l1 l2 : List ℕ} (h : l1.Perm l2) : l1.maximum = l2.maximum := by
  induction h with
  | nil => rfl
  | cons x _ ih => rw [List.maximum_cons, List.maximum_cons, ih]
  | swap x y l =>
    rw [List.maximum_cons, List.maximum_cons, List.maximum_cons, List.maximum_cons]
    exact max_left_comm _ _ _
  | trans _ _ ih1 ih2 => exact ih1.trans ih2

theorem sortedAsc_perm {l1 l2 : List ℕ} (h : l1.Perm l2) : sortedAsc l1 = sortedAsc l2 :=
  List.eq_of_perm_of_sorted
    ((List.perm_insertionSort _ _).trans (h.trans (List.perm_insertionSort _ _).symm))
    (List.sorted_insertionSort _ _) (List.sorted_insertionSort _ _)

theorem sortedDesc_perm {l1 l2 : List ℕ} (h : l1.Perm l2) :
    l1.insertionSort (· ≥ ·) = l2.insertionSort (· ≥ ·) :=
  List.eq_of_perm_of_sorted
    ((List.perm_insertionSort _ _).trans (h.trans (List.perm_insertionSort _ _).symm))
    (List.sorted_insertionSort _ _) (List.sorted_insertionSort _ _)

theorem sortedCountsDesc_perm {α : Type} [DecidableEq α] {l1 l2 : List α}
    (h : l1.Perm l2) : sortedCountsDesc l1 = sortedCountsDesc l2 := by
  unfold sortedCountsDesc
  refine sortedDesc_perm ?_
  have h1 := h.dedup.map (fun x => l1.count x)
  have h2 : l2.dedup.map (fun x => l1.count x) = l2.dedup.map (fun x => l2.count x) :=
    List.map_congr_left (fun a _ => h.count_eq a)
  exact h2 ▸ h1

theorem medianCpp_perm {l1 l2 : List ℕ} (h : l1.Perm l2) : medianCpp l1 = medianCpp l2 := by
  unfold medianCpp
  rw [sortedAsc_perm h, h.length_eq]

theorem isEmpty_perm {α : Type} {l1 l2 : List α} (h : l1.Perm l2) :
    l1.isEmpty = l2.isEmpty := by
  have hlen := h.length_eq
  rcases l1 with _ | ⟨x, t⟩ <;> rcases l2 with _ | ⟨y, u⟩ <;> simp_all

theorem sortedCountsDesc_sum_eq_length {α : Type} [DecidableEq α] (l : List α) :
    (sortedCountsDesc l).sum = l.length := by
  unfold sortedCountsDesc
  rw [(List.perm_insertionSort (· ≥ ·) (l.dedup.map (fun x => l.count x))).sum_eq]
  exact sum_dedup_count_eq_length l

theorem coverCount_spec :
    ∀ (s : List ℕ) (t : ℕ), t ≤ s.sum →
      t ≤ (s.take (coverCount s t)).sum ∧ ∀ j, t ≤ (s.take j).sum → coverCount s t ≤ j := by
  intro s
  induction s with
  | nil =>
    intro t ht
    simp only [List.sum_nil, Nat.le_zero] at ht
    subst ht
    exact ⟨Nat.le_refl 0, fun j _ => Nat.zero_le j⟩
  | cons x xs ih =>
    intro t ht
    match t with
    | 0 => exact ⟨Nat.zero_le _, fun j _ => Nat.zero_le j⟩
    | m + 1 =>
      have hsub : m + 1 - x ≤ xs.sum := by
        simp only [List.sum_cons] at ht
        omega
      obtain ⟨h1, h2⟩ := ih (m + 1 - x) hsub
      constructor
      · show m + 1 ≤ (List.take (1 + coverCount xs (m + 1 - x)) (x :: xs)).sum
        rw [Nat.add_comm 1 (coverCount xs (m + 1 - x)), List.take_succ_cons, List.sum_cons]
        omega
      · intro j hj
        match j with
        | 0 => simp at hj
        | j' + 1 =>
          rw [List.take_succ_cons, List.sum_cons] at hj
          have : coverCount xs (m + 1 - x) ≤ j' := h2 j' (by omega)
          show 1 + coverCount xs (m + 1 - x) ≤ j' + 1
          omega

theorem list_sum_lt_sum_of_mem {α : Type} {l : List α} (f g : α → ℝ)
    (hle : ∀ x ∈ l, f x ≤ g x) (hx : ∃ x ∈ l, f x < g x) :
    (l.map f).sum < (l.map g).sum :=
  List.sum_lt_sum f g hle hx

theorem ceil90_is_ceil (n : ℕ) : ceil90 n = ⌈((9 * n : ℕ) : ℚ) / 10⌉₊ := by
  unfold ceil90
  refine le_antisymm ?_ (Nat.ceil_le.mpr ?_)
  · rcases Nat.eq_zero_or_pos ((9 * n + 9) / 10) with h0 | hpos
    · rw [h0]; exact Nat.zero_le _
    · have h1 : (9 * n + 9) / 10 - 1 < ⌈((9 * n : ℕ) : ℚ) / 10⌉₊ := by
        rw [Nat.lt_ceil, lt_div_iff₀ (by norm_num : (0 : ℚ) < 10)]
        have h2 : ((9 * n + 9) / 10 - 1) * 10 < 9 * n := by omega
        exact_mod_cast h2
      omega
  · rw [div_le_iff₀ (by norm_num : (0 : ℚ) < 10)]
    have h3 : 9 * n ≤ ((9 * n + 9) / 10) * 10 := by omega
    exact_mod_cast h3

/-! ### Characterisation of the work-group merge fold -/

/-- The booleans one worker contributes to a branch line at merge time. -/
def branchContrib (k : ℕ) (w : Worker) : List Bool :=
  if k ∈ w.branchSupport then w.branchSeq k else []

theorem foldl_merge_memoryOps (ws : List Worker) (a : Aggregate) :
    (ws.foldl workGroupComplete a).memoryOps
      = a.memoryOps ++ (ws.map Worker.memoryOps).flatten := by
  induction ws generalizing a with
  | nil => simp
  | cons w t ih => simp [ih, workGroupComplete]

theorem foldl_merge_computeOps (ws : List Worker) (a : Aggregate) :
    (ws.foldl workGroupComplete a).computeOps
      = a.computeOps ++ (ws.map Worker.computeOps).flatten := by
  induction ws generalizing a with
  | nil => simp
  | cons w t ih => simp [ih, workGroupComplete]

theorem foldl_merge_itb (ws : List Worker) (a : Aggregate) :
    (ws.foldl workGroupComplete a).instructionsToBarrier
      = a.instructionsToBarrier ++ (ws.map Worker.instructionsBetweenBarriers).flatten := by
  induction ws generalizing a with
  | nil => simp
  | cons w t ih => simp [ih, workGroupComplete]

theorem foldl_merge_width (ws : List Worker) (a : Aggregate) :
    (ws.foldl workGroupComplete a).instructionWidth
      = a.instructionWidth ++ (ws.map Worker.instructionWidth).flatten := by
  induction ws generalizing a with
  | nil => simp
  | cons w t ih => simp [ih, workGroupComplete]

theorem foldl_merge_ipt (ws : List Worker) (a : Aggregate) :
    (ws.foldl workGroupComplete a).instructionsPerWorkitem
      = a.instructionsPerWorkitem ++ (ws.map Worker.instructionsPerWorkitem).flatten := by
  induction ws generalizing a with
  | nil => simp
  | cons w t ih => simp [ih, workGroupComplete]

theorem foldl_merge_ibls (ws : List Worker) (a : Aggregate) :
    (ws.foldl workGroupComplete a).instructionsBetweenLoadOrStore
      = a.instructionsBetweenLoadOrStore
        ++ (ws.map Worker.instructionsBetweenLoadOrStore).flatten := by
  induction ws generalizing a with
  | nil => simp
  | cons w t ih => simp [ih, workGroupComplete]

theorem foldl_merge_loadLabels (ws : List Worker) (a : Aggregate) :
    (ws.foldl workGroupComplete a).loadInstructionLabels
      = a.loadInstructionLabels ++ (ws.map Worker.loadInstructionLabels).flatten := by
  induction ws generalizing a with
  | nil => simp
  | cons w t ih => simp [ih, workGroupComplete]

theorem foldl_merge_storeLabels (ws : List Worker) (a : Aggregate) :
    (ws.foldl workGroupComplete a).storeInstructionLabels
      = a.storeInstructionLabels ++ (ws.map Worker.storeInstructionLabels).flatten := by
  induction ws generalizing a with
  | nil => simp
  | cons w t ih => simp [ih, workGroupComplete]

theorem foldl_merge_threads (ws : List Worker) (a : Aggregate) :
    (ws.foldl workGroupComplete a).threadsInvoked
      = a.threadsInvoked + (ws.map Worker.threadsInvoked).sum := by
  induction ws generalizing a with
  | nil => simp
  | cons w t ih => simp [ih, workGroupComplete]; omega

theorem foldl_merge_barriers (ws : List Worker) (a : Aggregate) :
    (ws.foldl workGroupComplete a).barriersHit
      = a.barriersHit + (ws.map Worker.barriersHit).sum := by
  induction ws generalizing a with
  | nil => simp
  | cons w t ih => simp [ih, workGroupComplete]; omega

theorem foldl_merge_global (ws : List Worker) (a : Aggregate) :
    (ws.foldl workGroupComplete a).globalMemAccess
      = a.globalMemAccess + (ws.map Worker.globalMemAccess).sum := by
  induction ws generalizing a with
  | nil => simp
  | cons w t ih => simp [ih, workGroupComplete]; omega

theorem foldl_merge_local (ws : List Worker) (a : Aggregate) :
    (ws.foldl workGroupComplete a).localMemAccess
      = a.localMemAccess + (ws.map Worker.localMemAccess).sum := by
  induction ws generalizing a with
  | nil => simp
  | cons w t ih => simp [ih, workGroupComplete]; omega

theorem foldl_merge_constant (ws : List Worker) (a : Aggregate) :
    (ws.foldl workGroupComplete a).constantMemAccess
      = a.constantMemAccess + (ws.map Worker.constantMemAccess).sum := by
  induction ws generalizing a with
  | nil => simp
  | cons w t ih => simp [ih, workGroupComplete]; omega

theorem foldl_merge_branchSeq (ws : List Worker) (a : Aggregate) (k : ℕ) :
    (ws.foldl workGroupComplete a).branchSeq k
      = a.branchSeq k ++ (ws.map (branchContrib k)).flatten := by
  induction ws generalizing a with
  | nil => simp
  | cons w t ih => simp [ih, workGroupComplete, branchContrib]

theorem foldl_merge_support_mem (ws : List Worker) (a : Aggregate) (k : ℕ) :
    k ∈ (ws.foldl workGroupComplete a).branchSupport
      ↔ k ∈ a.branchSupport ∨ ∃ w ∈ ws, k ∈ w.branchSupport := by
  induction ws generalizing a with
  | nil => simp
  | cons w t ih =>
    rw [List.foldl_cons, ih]
    simp only [workGroupComplete, List.mem_append, List.mem_filter,
      decide_eq_true_eq, List.mem_cons]
    constructor
    · rintro (((h | ⟨h1, _⟩) | ⟨x, hx, h⟩))
      · exact Or.inl h
      · exact Or.inr ⟨w, Or.inl rfl, h1⟩
      · exact Or.inr ⟨x, Or.inr hx, h⟩
    · rintro (h | ⟨x, (rfl | hx), h⟩)
      · exact Or.inl (Or.inl h)
      · by_cases hk : k ∈ a.branchSupport
        · exact Or.inl (Or.inl hk)
        · exact Or.inl (Or.inr ⟨h, hk⟩)
      · exact Or.inr ⟨x, hx, h⟩

theorem foldl_merge_support_nodup (ws : List Worker) (a : Aggregate)
    (ha : a.branchSupport.Nodup) (hw : ∀ w ∈ ws, w.branchSupport.Nodup) :
    (ws.foldl workGroupComplete a).branchSupport.Nodup := by
  induction ws generalizing a with
  | nil => exact ha
  | cons w t ih =>
    rw [List.foldl_cons]
    refine ih _ ?_ (fun x hx => hw x (List.mem_cons_of_mem _ hx))
    show (a.branchSupport ++ _).Nodup
    refine List.Nodup.append ha ((hw w (List.mem_cons_self _ _)).filter _) ?_
    intro x hx1 hx2
    rw [List.mem_filter, decide_eq_true_eq] at hx2
    exact hx2.2 hx1

/-! ### Concrete scenarios -/

/-- An aggregate with data in the containers `kernelEnd` fails to clear. -/
def aggC2 : Aggregate :=
  { kernelBeginAggregate with
    instructionWidth := [1]
    barriersHit := 1
    globalMemAccess := 1
    localMemAccess := 1
    constantMemAccess := 1 }

/-- One work-item executing three `add` instructions of width 1 (no loads or
stores, so `instructionsBetweenLoadOrStore` stays empty). -/
def wThreeAdds : Worker :=
  runWorker
    ([WEvent.workItemBegin] ++ List.replicate 3 (WEvent.instruction "add" 1 none)
      ++ [WEvent.workItemComplete])

def aggThreeAdds : Aggregate := mergeAll [wThreeAdds]

/-- One work-item of the scenario: 4 instructions, a barrier, 2 instructions,
completion. -/
def itemEventsC8 : List WEvent :=
  [WEvent.workItemBegin] ++ List.replicate 4 (WEvent.instruction "add" 1 none)
    ++ [WEvent.workItemBarrier] ++ List.replicate 2 (WEvent.instruction "add" 1 none)
    ++ [WEvent.workItemComplete]

/-- Two such work-items executed by one worker. -/
def aggTwoItems : Aggregate := mergeAll [runWorker (itemEventsC8 ++ itemEventsC8)]

/-- The host scenario `hostMemoryStore, hostMemoryStore, kernelBegin("K"),
kernelEnd("K"), hostMemoryLoad`. -/
def hostScenario : HostState :=
  runHost [HostEvent.hostStore, HostEvent.hostStore, HostEvent.kBegin "K",
    HostEvent.kEnd, HostEvent.hostLoad]

/-- A host run leaving the host-to-device list in the non-grouped order
`["A", "B", "A"]`. -/
def hostABA : HostState :=
  runHost [HostEvent.hostStore, HostEvent.kBegin "A", HostEvent.hostStore,
    HostEvent.kBegin "B", HostEvent.hostStore, HostEvent.kBegin "A"]

/-- 64 perfectly alternating branch outcomes. -/
def altSeq : List Bool := (List.range 64).map (fun i => i % 2 = 0)

/-- An invocation with a single branch line 42 carrying `altSeq`. -/
def altAgg : Aggregate :=
  { kernelBeginAggregate with
    branchSupport := [42]
    branchSeq := fun k => if k = 42 then altSeq else [] }

/-- 4 accesses to address 0x1000 and 1 access to 0x2000. -/
def aggMem7 : Aggregate :=
  { kernelBeginAggregate with memoryOps := [4096, 4096, 4096, 4096, 8192] }

/-- A worker whose branch line 7 recorded `true` followed by 15 `false`. -/
def wA : Worker :=
  { workGroupBeginWorker with
    branchSupport := [7]
    branchSeq := fun k => if k = 7 then true :: List.replicate 15 false else [] }

/-- A worker whose branch line 7 recorded 16 `true`. -/
def wB : Worker :=
  { workGroupBeginWorker with
    branchSupport := [7]
    branchSeq := fun k => if k = 7 then List.replicate 16 true else [] }

/-- A 16-bit pattern with 8 taken and 8 not-taken outcomes. -/
def patHalf : List Bool := List.replicate 8 true ++ List.replicate 8 false

/-- An invocation whose single branch line 5 recorded `patHalf` twice in a row,
so the window `patHalf` occurs twice. -/
def aggPatTwice : Aggregate :=
  { kernelBeginAggregate with
    branchSupport := [5]
    branchSeq := fun k => if k = 5 then patHalf ++ patHalf else [] }

/-! ### C2 -/

/-- Claim C2 counterexample: after `kernelEnd`'s trailing reset the SIMD-width
histogram, the barrier counter and the three memory-class counters still hold
their old values - `kernelEnd` never clears them (they are only cleared by the
next `kernelBegin`). -/
theorem C2_kernelEnd_leaves_width_and_counters :
    (kernelEndReset aggC2).instructionWidth = [1] ∧
    (kernelEndReset aggC2).barriersHit = 1 ∧
    (kernelEndReset aggC2).globalMemAccess = 1 ∧
    (kernelEndReset aggC2).localMemAccess = 1 ∧
    (kernelEndReset aggC2).constantMemAccess = 1 ∧
    ¬ ((kernelEndReset aggC2).instructionWidth = [] ∧
       (kernelEndReset aggC2).barriersHit = 0) := by
  decide

/-- Claim C2 amended: `kernelEnd` clears `memoryOps`, `computeOps`, `branchOps`,
`instructionsToBarrier`, `instructionsPerWorkitem`,
`instructionsBetweenLoadOrStore` and the label maps and zeroes
`threadsInvoked`, but leaves `instructionWidth`, `barriersHit` and the three
memory-access counters untouched; those are reset only at the next
`kernelBegin`, whose state is fully empty. -/
theorem C2_kernelEnd_reset_amended (a : Aggregate) :
    (kernelEndReset a).memoryOps = [] ∧
    (kernelEndReset a).computeOps = [] ∧
    (kernelEndReset a).branchSupport = [] ∧
    (kernelEndReset a).branchSeq = (fun _ => []) ∧
    (kernelEndReset a).instructionsToBarrier = [] ∧
    (kernelEndReset a).instructionsPerWorkitem = [] ∧
    (kernelEndReset a).instructionsBetweenLoadOrStore = [] ∧
    (kernelEndReset a).loadInstructionLabels = [] ∧
    (kernelEndReset a).storeInstructionLabels = [] ∧
    (kernelEndReset a).threadsInvoked = 0 ∧
    (kernelEndReset a).instructionWidth = a.instructionWidth ∧
    (kernelEndReset a).barriersHit = a.barriersHit ∧
    (kernelEndReset a).globalMemAccess = a.globalMemAccess ∧
    (kernelEndReset a).localMemAccess = a.localMemAccess ∧
    (kernelEndReset a).constantMemAccess = a.constantMemAccess ∧
    kernelBeginAggregate.instructionWidth = [] ∧
    kernelBeginAggregate.barriersHit = 0 ∧
    kernelBeginAggregate.globalMemAccess = 0 ∧
    kernelBeginAggregate.localMemAccess = 0 ∧
    kernelBeginAggregate.constantMemAccess = 0 :=
  ⟨rfl, rfl, rfl, rfl, rfl, rfl, rfl, rfl, rfl, rfl,
   rfl, rfl, rfl, rfl, rfl, rfl, rfl, rfl, rfl, rfl⟩

/-! ### C3 -/

/-- Claim C3 counterexample: a reachable invocation (one work-item, three
instructions, no loads or stores) whose report is defined, yet the
freedom-to-reorder value is NaN (`0.0 / 0`), not 0 - there is no emptiness
guard in `kernelEnd`. -/
theorem C3_freedom_to_reorder_nan_counterexample :
    aggThreeAdds.instructionsBetweenLoadOrStore = [] ∧
    kernelEndReportCore aggThreeAdds = some (reportFields aggThreeAdds) ∧
    (reportFields aggThreeAdds).freedomToReorder = FVal.nan ∧
    (reportFields aggThreeAdds).freedomToReorder ≠ FVal.fin 0 := by
  have h : aggThreeAdds.instructionsBetweenLoadOrStore = [] := by decide
  have hf : (reportFields aggThreeAdds).freedomToReorder = FVal.nan := by
    show freedomToReorder aggThreeAdds = FVal.nan
    simp [freedomToReorder, h, divF]
  exact ⟨h, rfl, hf, by rw [hf]; exact fun hc => FVal.noConfusion hc⟩

/-- Claim C3 amended: when `instructionsBetweenLoadOrStore` is empty at
`kernelEnd`, the freedom-to-reorder metric reported on stdout and in the CSV is
the IEEE quotient `0.0/0` = NaN (not 0; the code coerces NaN to 0 only for the
average linear branch entropy). -/
theorem C3_freedom_to_reorder_empty_nan (a : Aggregate)
    (h : a.instructionsBetweenLoadOrStore = []) :
    freedomToReorder a = FVal.nan ∧ (reportFields a).freedomToReorder = FVal.nan := by
  have hf : freedomToReorder a = FVal.nan := by
    simp [freedomToReorder, h, divF]
  exact ⟨hf, hf⟩

theorem C3_freedom_to_reorder_empty_nan_witness :
    aggThreeAdds.instructionsBetweenLoadOrStore = [] ∧
    freedomToReorder aggThreeAdds = FVal.nan :=
  ⟨by decide, (C3_freedom_to_reorder_empty_nan aggThreeAdds (by decide)).1⟩

/-! ### C5 -/

/-- Claim C5 (code bug): for an invocation with zero work-groups the aggregate
at `kernelEnd` is exactly `kernelBeginAggregate`, and the report dereferences
`*min_element` of empty vectors and indexes `v[0/2 - 1] = v[SIZE_MAX]` - the
embedded report is undefined (`none`); no degenerate report is produced. -/
theorem C5_empty_invocation_kernelEnd_undefined :
    mergeAll [] = kernelBeginAggregate ∧
    kernelEndReportCore (mergeAll []) = none ∧
    (mergeAll []).instructionsToBarrier.minimum = ⊤ ∧
    medianCpp (mergeAll []).instructionsToBarrier = none ∧
    (mergeAll []).instructionWidth.dedup.minimum = ⊤ := by
  refine ⟨rfl, ?_, rfl, rfl, rfl⟩
  decide

/-! ### C6 -/

/-- Claim C6: `hostMemoryStore` appends the last-known kernel name to the
host-to-device log and bumps the pending counter; `hostMemoryLoad` appends the
last-named kernel to the device-to-host log; `kernelBegin` relabels the most
recent pending entries to the new kernel's name, zeroes the counter, and never
touches the device-to-host log.  For the event sequence `hostMemoryStore,
hostMemoryStore, kernelBegin("K"), kernelEnd("K"), hostMemoryLoad` the final
log attributes 2 host-to-device and 1 device-to-host transfers to `K`. -/
theorem C6_host_transfer_attribution (s : HostState) (name : String)
    (h : s.numberOfHostToDeviceCopiesBeforeKernelNamed ≤ s.hostToDeviceCopy.length) :
    (hostMemoryStore s).hostToDeviceCopy = s.hostToDeviceCopy ++ [s.lastKernelName] ∧
    (hostMemoryStore s).numberOfHostToDeviceCopiesBeforeKernelNamed
      = s.numberOfHostToDeviceCopiesBeforeKernelNamed + 1 ∧
    (hostMemoryStore s).deviceToHostCopy = s.deviceToHostCopy ∧
    (hostMemoryLoad s).deviceToHostCopy = s.deviceToHostCopy ++ [s.lastKernelName] ∧
    (hostMemoryLoad s).hostToDeviceCopy = s.hostToDeviceCopy ∧
    (kernelBeginHost s name).hostToDeviceCopy
      = s.hostToDeviceCopy.take
          (s.hostToDeviceCopy.length - s.numberOfHostToDeviceCopiesBeforeKernelNamed)
        ++ List.replicate s.numberOfHostToDeviceCopiesBeforeKernelNamed name ∧
    (kernelBeginHost s name).numberOfHostToDeviceCopiesBeforeKernelNamed = 0 ∧
    (kernelBeginHost s name).deviceToHostCopy = s.deviceToHostCopy ∧
    (kernelBeginHost s name).lastKernelName = name ∧
    hostScenario.hostToDeviceCopy = ["K", "K"] ∧
    hostScenario.deviceToHostCopy = ["K"] ∧
    hostScenario.hostToDeviceCopy.count "K" = 2 ∧
    hostScenario.deviceToHostCopy.count "K" = 1 := by
  refine ⟨rfl, rfl, rfl, rfl, rfl, ?_, rfl, rfl, rfl, by decide, by decide, by decide, by decide⟩
  show relabelTail s.hostToDeviceCopy s.numberOfHostToDeviceCopiesBeforeKernelNamed name = _
  unfold relabelTail
  congr 1
  rw [List.map_const']
  congr 1
  rw [List.length_drop]
  omega

theorem C6_host_transfer_attribution_witness :
    initialHostState.numberOfHostToDeviceCopiesBeforeKernelNamed
      ≤ initialHostState.hostToDeviceCopy.length ∧
    hostScenario.hostToDeviceCopy.count "K" = 2 ∧
    hostScenario.deviceToHostCopy.count "K" = 1 :=
  ⟨by decide, (C6_host_transfer_attribution initialHostState "K" (by decide)).2.2.2.2.2.2.2.2.2.2.2⟩

/-! ### C8 -/

/-- Claim C8: two work-items, each executing 4 instructions, one barrier and 2
more instructions, give `threadsInvoked = 2`, `barriersHit = 2`,
`instructionsBetweenBarriers` = the multiset {4,4,2,2}, integer-rule median 3,
and `barriersPerInstruction = (2+2)/12 = 1/3`. -/
theorem C8_two_workitems_barrier_stats :
    aggTwoItems.threadsInvoked = 2 ∧
    aggTwoItems.barriersHit = 2 ∧
    aggTwoItems.instructionsToBarrier.Perm [4, 4, 2, 2] ∧
    medianCpp aggTwoItems.instructionsToBarrier = some 3 ∧
    totalInstructionCount aggTwoItems = 12 ∧
    barriersPerInstruction aggTwoItems = FVal.fin (4 / 12) := by
  have h1 : aggTwoItems.barriersHit = 2 := by decide
  have h2 : aggTwoItems.threadsInvoked = 2 := by decide
  have h3 : totalInstructionCount aggTwoItems = 12 := by decide
  refine ⟨h2, h1, by decide, by decide, h3, ?_⟩
  rw [barriersPerInstruction, h1, h2, h3]
  rw [divF]
  norm_num

/-! ### C4 -/

theorem mem_uniqueConsecutive (l : List String) (x : String) :
    x ∈ uniqueConsecutive l ↔ x ∈ l := by
  induction l with
  | nil => simp [uniqueConsecutive]
  | cons a t ih =>
    match t with
    | [] => simp [uniqueConsecutive]
    | b :: u =>
      show x ∈ (if a = b then uniqueConsecutive (b :: u)
        else a :: uniqueConsecutive (b :: u)) ↔ _
      by_cases hab : a = b
      · subst hab
        rw [if_pos rfl, ih]
        simp
      · rw [if_neg hab]
        simp [ih]

/-- Claim C4 counterexample: the host-to-device list can end up in the order
`["A", "B", "A"]` (store, kernel A, store, kernel B, store, kernel A), and for
that ordering the destructor emits TWO `transfer: host to device` rows for
kernel `A` - `std::unique` is applied without sorting, so only adjacent
duplicates collapse. -/
theorem C4_transfer_rows_duplicate_counterexample :
    hostABA.hostToDeviceCopy = ["A", "B", "A"] ∧
    (transferRows "transfer: host to device" ["A", "B", "A"]).map (fun r => r.2.1)
      = ["A", "B", "A"] ∧
    ¬ ((transferRows "transfer: host to device" ["A", "B", "A"]).countP
        (fun r => decide (r.2.1 = "A")) = 1) := by
  refine ⟨by decide, by decide, by decide⟩

/-- Claim C4 amended: each row of the transfers CSV carries the metric string
and the kernel's TOTAL transfer count over the whole list, and there is one row
per entry of the `std::unique`-compacted (adjacent-duplicate-free) list - hence
exactly one row per distinct kernel name only when every kernel's entries are
adjacent (e.g. when the list happens to be grouped); the kernels appearing in
rows are exactly those appearing in the list. -/
theorem C4_transfer_rows_amended (metric : String) (l : List String)
    (h : (uniqueConsecutive l).Nodup) :
    (∀ k, k ∈ uniqueConsecutive l ↔ k ∈ l) ∧
    (transferRows metric l).map (fun r => r.2.1) = uniqueConsecutive l ∧
    (∀ k ∈ l, (uniqueConsecutive l).count k = 1) ∧
    (∀ row ∈ transferRows metric l, row.1 = metric ∧ row.2.2 = l.count row.2.1) := by
  refine ⟨mem_uniqueConsecutive l, ?_, ?_, ?_⟩
  · unfold transferRows
    rw [List.map_map]
    exact List.map_id _
  · intro k hk
    exact List.count_eq_one_of_mem h ((mem_uniqueConsecutive l k).mpr hk)
  · intro row hrow
    unfold transferRows at hrow
    obtain ⟨k, _, rfl⟩ := List.mem_map.mp hrow
    exact ⟨rfl, rfl⟩

theorem C4_transfer_rows_amended_witness :
    (uniqueConsecutive ["A", "A", "B"]).Nodup ∧
    (transferRows "transfer: host to device" ["A", "A", "B"]).map (fun r => r.2.1)
      = uniqueConsecutive ["A", "A", "B"] :=
  ⟨by decide, (C4_transfer_rows_amended "transfer: host to device" ["A", "A", "B"]
    (by decide)).2.1⟩

/-! ### C1 -/

theorem count_true_add_count_false (l : List Bool) :
    l.count true + l.count false = l.length := by
  induction l with
  | nil => rfl
  | cons b t ih => cases b <;> simp [List.count_cons] <;> omega

theorem mem_windows_length (l : List Bool) (w : List Bool)
    (hw : w ∈ windowsM 16 l) : w.length = 16 := by
  unfold windowsM at hw
  by_cases hlt : l.length < 16
  · rw [if_pos hlt] at hw
    simp at hw
  · rw [if_neg hlt] at hw
    obtain ⟨i, hi, rfl⟩ := List.mem_map.mp hw
    rw [List.mem_range] at hi
    rw [List.length_take, List.length_drop]
    omega

theorem count_decEq_eq {α : Type} [DecidableEq α] (inst : BEq α) [@LawfulBEq α inst]
    (x : α) (l : List α) :
    @List.count α inst x l = @List.count α instBEqOfDecidableEq x l := by
  induction l with
  | nil => rfl
  | cons a t ih =>
    rw [@List.count_cons α inst x a t, @List.count_cons α instBEqOfDecidableEq x a t, ih]
    congr 1
    by_cases h : x = a <;> simp [h, beq_iff_eq, instBEqOfDecidableEq]

theorem lineWindowCount_eq (l : List Bool) :
    lineWindowCount l = (windowsM 16 l).length := by
  unfold lineWindowCount
  rw [List.map_congr_left (fun p _ => count_decEq_eq _ p (windowsM 16 l))]
  exact sum_dedup_count_eq_length (windowsM 16 l)

theorem lineAvgLinearNum_eq (l : List Bool) :
    lineAvgLinearNum l = ((windowsM 16 l).map linearBranchEntropy).sum := by
  unfold lineAvgLinearNum
  rw [← sum_dedup_count_smul (windowsM 16 l) linearBranchEntropy]
  refine congrArg List.sum (List.map_congr_left (fun p _ => ?_))
  rw [count_decEq_eq _ p (windowsM 16 l), nsmul_eq_mul]

theorem lineYokota_eq (l : List Bool) :
    lineYokota l = ((windowsM 16 l).map yokotaTerm).sum := by
  unfold lineYokota
  rw [← sum_dedup_count_smul (windowsM 16 l) yokotaTerm]
  refine congrArg List.sum (List.map_congr_left (fun p _ => ?_))
  rw [count_decEq_eq _ p (windowsM 16 l), nsmul_eq_mul]

theorem linearBranchEntropy_eq_min (pat : List Bool) (h : pat ≠ []) :
    linearBranchEntropy pat
      = 2 * ((min (pat.count true) (pat.count false) : ℕ) : ℚ) / pat.length := by
  have hlen : pat.count true + pat.count false = pat.length :=
    count_true_add_count_false pat
  have hpos : 0 < (pat.length : ℚ) := by
    have := List.length_pos.mpr h
    exact_mod_cast this
  unfold linearBranchEntropy patternTakenRate
  have hd : ((pat.count false : ℕ) : ℚ) + ((pat.count true : ℕ) : ℚ) = (pat.length : ℚ) := by
    rw [← hlen]
    push_cast
    ring
  rw [hd]
  have h1 : 1 - (pat.count true : ℚ) / (pat.length : ℚ)
      = (pat.count false : ℚ) / (pat.length : ℚ) := by
    rw [eq_div_iff (ne_of_gt hpos), sub_mul, div_mul_cancel₀ _ (ne_of_gt hpos), ← hd]
    ring
  rw [h1, min_div_div_right (le_of_lt hpos)]
  push_cast
  ring

theorem list_sum_map_div {α : Type} (l : List α) (f : α → ℚ) (c : ℚ) :
    (l.map (fun x => f x / c)).sum = (l.map f).sum / c := by
  induction l with
  | nil => simp
  | cons a t ih => simp [ih, add_div]

theorem lineAvgLinearNum_eq_min_sum (l : List Bool) :
    lineAvgLinearNum l
      = ((((windowsM 16 l).map (fun w => min (w.count true) (w.count false))).sum : ℕ) : ℚ)
        / 8 := by
  rw [lineAvgLinearNum_eq, Nat.cast_list_sum, List.map_map, ← list_sum_map_div]
  refine congrArg List.sum (List.map_congr_left (fun w hw => ?_))
  have hlen : w.length = 16 := mem_windows_length l w hw
  have hne : w ≠ [] := fun hnil => by simp [hnil] at hlen
  simp only [Function.comp_apply]
  rw [linearBranchEntropy_eq_min w hne, hlen]
  ring

/-- Claim C1: branch entropy uses a history window of m = 16.  A line shorter
than 16 contributes nothing; a line of length ≥ 16 contributes `length - 15`
windows; the occurrence-count-weighted sums over distinct patterns equal the
plain sums over all windows (so each distinct pattern with count `c`
contributes `c` times its per-window term, and `c` is added to `N`); and a
single line of 64 perfectly alternating outcomes yields average linear branch
entropy 1. -/
theorem C1_branch_entropy_window16 :
    (∀ l : List Bool, l.length < 16 →
      windowsM 16 l = [] ∧ lineWindowCount l = 0 ∧ lineAvgLinearNum l = 0 ∧
        lineYokota l = 0 ∧ lineYokotaPerWorkload l = 0) ∧
    (∀ l : List Bool, 16 ≤ l.length → (windowsM 16 l).length = l.length - 15) ∧
    (∀ l : List Bool, lineWindowCount l = (windowsM 16 l).length ∧
      lineAvgLinearNum l = ((windowsM 16 l).map linearBranchEntropy).sum ∧
      lineYokota l = ((windowsM 16 l).map yokotaTerm).sum) ∧
    averageLinearBranchEntropy altAgg = 1 := by
  refine ⟨?_, ?_, ?_, ?_⟩
  · intro l h
    have hw : windowsM 16 l = [] := by rw [windowsM, if_pos h]
    refine ⟨hw, ?_, ?_, ?_, ?_⟩ <;>
      simp [lineWindowCount, lineAvgLinearNum, lineYokota, lineYokotaPerWorkload, hw]
  · intro l h
    rw [windowsM, if_neg (Nat.not_lt.mpr h)]
    simp
  · intro l
    exact ⟨lineWindowCount_eq l, lineAvgLinearNum_eq l, lineYokota_eq l⟩
  · have hseqs : branchSeqs altAgg = [altSeq] := rfl
    have hcount : lineWindowCount altSeq = 49 := by decide
    have hmin :
        ((windowsM 16 altSeq).map (fun w => min (w.count true) (w.count false))).sum
          = 392 := by decide
    have hN : branchEntropyN altAgg = 49 := by
      unfold branchEntropyN
      rw [hseqs]
      simp [hcount]
    have hnum : lineAvgLinearNum altSeq = 49 := by
      rw [lineAvgLinearNum_eq_min_sum, hmin]
      norm_num
    unfold averageLinearBranchEntropy
    rw [hN, hseqs]
    simp [hnum]

theorem C1_branch_entropy_window16_witness :
    (([true] : List Bool).length < 16 ∧ windowsM 16 [true] = []) ∧
    (16 ≤ (List.replicate 16 true).length ∧
      (windowsM 16 (List.replicate 16 true)).length
        = (List.replicate 16 true).length - 15) :=
  ⟨⟨by decide, (C1_branch_entropy_window16.1 [true] (by decide)).1⟩,
   ⟨by decide, C1_branch_entropy_window16.2.1 (List.replicate 16 true) (by decide)⟩⟩

/-! ### C7 -/

/-- Claim C7 counterexample: for 4 accesses to 0x1000 and 1 to 0x2000 the 90%
coverage threshold is `ceil(0.9 * 5) = 5`, so the smallest prefix of the
descending count list `[4, 1]` reaching it has length 2 - the 90% footprint is
2, not 1 as the claim's example states. -/
theorem C7_ninety_pct_footprint_counterexample :
    ceil90 (memoryAccessCount aggMem7) = 5 ∧
    sortedCountsDesc aggMem7.memoryOps = [4, 1] ∧
    ninetyPctFootprint aggMem7 = 2 ∧
    ninetyPctFootprint aggMem7 ≠ 1 := by
  refine ⟨by decide, by decide, by decide, by decide⟩

theorem log2_five_lower : (23219/10000 : ℝ) < Real.logb 2 5 := by
  rw [Real.lt_logb_iff_rpow_lt (by norm_num) (by norm_num : (0:ℝ) < 5)]
  by_contra hle
  push_neg at hle
  have h1 := pow_le_pow_left₀ (by positivity : (0:ℝ) ≤ 5) hle 10000
  rw [← Real.rpow_natCast ((2:ℝ) ^ ((23219/10000 : ℝ))) 10000,
    ← Real.rpow_mul (by norm_num : (0:ℝ) ≤ 2)] at h1
  norm_num at h1

theorem log2_five_upper : Real.logb 2 5 < (23220/10000 : ℝ) := by
  rw [Real.logb_lt_iff_lt_rpow (by norm_num) (by norm_num : (0:ℝ) < 5)]
  by_contra hle
  push_neg at hle
  have h1 := pow_le_pow_left₀ (by positivity : (0:ℝ) ≤ 2 ^ ((23220/10000 : ℝ))) hle 10000
  rw [← Real.rpow_natCast ((2:ℝ) ^ ((23220/10000 : ℝ))) 10000,
    ← Real.rpow_mul (by norm_num : (0:ℝ) ≤ 2)] at h1
  norm_num at h1

/-- The memory-address entropy of the C7 example in closed form:
`-(4/5 log2 (4/5) + 1/5 log2 (1/5)) = log2 5 - 8/5`. -/
theorem globalEntropy_mem7 : globalMemoryAddressEntropy aggMem7 = Real.logb 2 5 - 8/5 := by
  have hd : aggMem7.memoryOps.dedup = [4096, 8192] := by decide
  have hc1 : aggMem7.memoryOps.count 4096 = 4 := by decide
  have hc2 : aggMem7.memoryOps.count 8192 = 1 := by decide
  have hl : aggMem7.memoryOps.length = 5 := by decide
  unfold globalMemoryAddressEntropy addrEntropy
  rw [hd]
  simp only [List.map_cons, List.map_nil, List.sum_cons, List.sum_nil, hc1, hc2, hl]
  have h2 : Real.log 2 ≠ 0 := ne_of_gt (Real.log_pos (by norm_num))
  rw [Real.logb, Real.logb, Real.logb]
  push_cast
  rw [Real.log_div (by norm_num) (by norm_num), Real.log_div (by norm_num) (by norm_num)]
  have h4 : Real.log 4 = 2 * Real.log 2 := by
    rw [show (4:ℝ) = 2^(2:ℕ) by norm_num, Real.log_pow]
    push_cast
    ring
  rw [h4, Real.log_one]
  field_simp
  ring

/-- Claim C7 amended: the footprint is the number of distinct addresses, the
access count equals `len(memoryOps)`, the 90% footprint is the length of the
smallest prefix of the descending count histogram reaching `ceil90`, and for
the example (4 accesses to 0x1000, 1 to 0x2000) the values are footprint 2,
access count 5, 90% footprint 2 (not 1), and global entropy
`log2 5 - 8/5 = 0.7219...` (strictly between 0.7219 and 0.7220). -/
theorem C7_memory_footprint_amended (s : List ℕ) (t : ℕ) (h : t ≤ s.sum) :
    (∀ a : Aggregate, memoryAccessCount a = a.memoryOps.length) ∧
    (t ≤ (s.take (coverCount s t)).sum ∧ ∀ j, t ≤ (s.take j).sum → coverCount s t ≤ j) ∧
    (totalMemoryFootprint aggMem7 = 2 ∧ memoryAccessCount aggMem7 = 5 ∧
      ninetyPctFootprint aggMem7 = 2) ∧
    (globalMemoryAddressEntropy aggMem7 = Real.logb 2 5 - 8/5 ∧
      (7219/10000 : ℝ) < globalMemoryAddressEntropy aggMem7 ∧
      globalMemoryAddressEntropy aggMem7 < (7220/10000 : ℝ)) := by
  refine ⟨?_, coverCount_spec s t h, ⟨by decide, by decide, by decide⟩, ?_, ?_, ?_⟩
  · intro a
    exact sortedCountsDesc_sum_eq_length a.memoryOps
  · exact globalEntropy_mem7
  · rw [globalEntropy_mem7]
    have := log2_five_lower
    linarith
  · rw [globalEntropy_mem7]
    have := log2_five_upper
    linarith

theorem C7_memory_footprint_amended_witness :
    5 ≤ ([4, 1] : List ℕ).sum ∧
    (5 ≤ (([4, 1] : List ℕ).take (coverCount [4, 1] 5)).sum ∧
      coverCount ([4, 1] : List ℕ) 5 ≤ 2) ∧
    ninetyPctFootprint aggMem7 = 2 :=
  ⟨by decide,
   ⟨(C7_memory_footprint_amended [4, 1] 5 (by decide)).2.1.1,
    (C7_memory_footprint_amended [4, 1] 5 (by decide)).2.1.2 2 (by decide)⟩,
   (C7_memory_footprint_amended [4, 1] 5 (by decide)).2.2.1.2.2⟩

/-! ### C10 -/

theorem patternTakenRate_nonneg (pat : List Bool) : 0 ≤ patternTakenRate pat := by
  unfold patternTakenRate
  positivity

theorem patternTakenRate_le_one (pat : List Bool) : patternTakenRate pat ≤ 1 := by
  unfold patternTakenRate
  rcases Nat.eq_zero_or_pos (pat.count false + pat.count true) with h0 | hpos
  · have h1 : pat.count true = 0 := by omega
    have h2 : pat.count false = 0 := by omega
    simp [h1, h2]
  · have hq : 0 < (pat.count false : ℚ) + (pat.count true : ℚ) := by
      have h : (0:ℚ) < ((pat.count false + pat.count true : ℕ) : ℚ) := by exact_mod_cast hpos
      push_cast at h
      linarith
    rw [div_le_one hq]
    have h0 : (0:ℚ) ≤ (pat.count false : ℚ) := by positivity
    linarith

theorem patternTakenRate_pos (pat : List Bool) (ht : pat.count true ≠ 0) :
    0 < patternTakenRate pat := by
  unfold patternTakenRate
  apply div_pos
  · exact_mod_cast Nat.pos_of_ne_zero ht
  · have h : 0 < pat.count false + pat.count true := by omega
    have h2 : (0:ℚ) < ((pat.count false + pat.count true : ℕ) : ℚ) := by exact_mod_cast h
    push_cast at h2
    linarith

theorem patternTakenRate_lt_one (pat : List Bool) (hf : pat.count false ≠ 0) :
    patternTakenRate pat < 1 := by
  unfold patternTakenRate
  have hq : 0 < (pat.count false : ℚ) + (pat.count true : ℚ) := by
    have h : 0 < pat.count false + pat.count true := by omega
    have h2 : (0:ℚ) < ((pat.count false + pat.count true : ℕ) : ℚ) := by exact_mod_cast h
    push_cast at h2
    linarith
  rw [div_lt_one hq]
  have h3 : (0:ℚ) < (pat.count false : ℚ) := by exact_mod_cast Nat.pos_of_ne_zero hf
  linarith

theorem yokotaTerm_nonneg (pat : List Bool) : 0 ≤ yokotaTerm pat := by
  unfold yokotaTerm
  split
  · exact le_refl 0
  · rename_i hne
    have hp0 : 0 < patternTakenRate pat :=
      lt_of_le_of_ne (patternTakenRate_nonneg pat) (Ne.symm hne)
    have hp1 : patternTakenRate pat ≤ 1 := patternTakenRate_le_one pat
    have hlogb : Real.logb 2 ((patternTakenRate pat : ℝ)) ≤ 0 :=
      Real.logb_nonpos (by norm_num) (by exact_mod_cast le_of_lt hp0) (by exact_mod_cast hp1)
    have hpr : (0:ℝ) ≤ ((patternTakenRate pat : ℝ)) := by exact_mod_cast le_of_lt hp0
    nlinarith

theorem yokotaTerm_pos (pat : List Bool) (ht : pat.count true ≠ 0)
    (hf : pat.count false ≠ 0) : 0 < yokotaTerm pat := by
  unfold yokotaTerm
  have hp0 : 0 < patternTakenRate pat := patternTakenRate_pos pat ht
  have hp1 : patternTakenRate pat < 1 := patternTakenRate_lt_one pat hf
  rw [if_neg (ne_of_gt hp0)]
  have hlt : Real.logb 2 ((patternTakenRate pat : ℝ)) < 0 :=
    Real.logb_neg (by norm_num) (by exact_mod_cast hp0) (by exact_mod_cast hp1)
  have hpr : (0:ℝ) < ((patternTakenRate pat : ℝ)) := by exact_mod_cast hp0
  nlinarith

theorem lineYokotaPW_le (l : List Bool) : lineYokotaPerWorkload l ≤ lineYokota l := by
  unfold lineYokotaPerWorkload lineYokota
  refine List.sum_le_sum ?_
  intro p hp
  have hc : 0 < (windowsM 16 l).count p := by
    rw [List.count_pos_iff]
    exact List.mem_dedup.mp hp
  have h1 : (1:ℝ) ≤ ((windowsM 16 l).count p : ℝ) := by exact_mod_cast hc
  exact le_mul_of_one_le_left (yokotaTerm_nonneg p) h1

theorem lineYokotaPW_lt (l : List Bool)
    (h : ∃ pat ∈ (windowsM 16 l).dedup, 1 < (windowsM 16 l).count pat ∧
      pat.count true ≠ 0 ∧ pat.count false ≠ 0) :
    lineYokotaPerWorkload l < lineYokota l := by
  unfold lineYokotaPerWorkload lineYokota
  obtain ⟨pat, hmem, hc, ht, hf⟩ := h
  refine List.sum_lt_sum _ _ ?_ ⟨pat, hmem, ?_⟩
  · intro p hp
    have hcp : 0 < (windowsM 16 l).count p := by
      rw [List.count_pos_iff]
      exact List.mem_dedup.mp hp
    have h1 : (1:ℝ) ≤ ((windowsM 16 l).count p : ℝ) := by exact_mod_cast hcp
    exact le_mul_of_one_le_left (yokotaTerm_nonneg p) h1
  · have h2 : (2:ℝ) ≤ ((windowsM 16 l).count pat : ℝ) := by exact_mod_cast hc
    nlinarith [yokotaTerm_pos pat ht hf]

/-- Claim C10: the per-kernel CSV row `branch entropy (yokota)` carries
`yokota_entropy_per_workload` (the sum of `-p log2 p` over distinct patterns,
unweighted), while the stdout line `Yokota Branch Entropy` carries the
occurrence-weighted `yokota_entropy`; whenever some pattern with taken-rate
strictly between 0 and 1 occurs more than once, the stdout value is strictly
larger, so the two differ. -/
theorem C10_csv_yokota_unweighted (a : Aggregate)
    (h : ∃ k ∈ a.branchSupport, ∃ pat ∈ (windowsM 16 (a.branchSeq k)).dedup,
      1 < (windowsM 16 (a.branchSeq k)).count pat ∧
      pat.count true ≠ 0 ∧ pat.count false ≠ 0) :
    csvBranchEntropyYokota a = yokotaEntropyPerWorkload a ∧
    stdoutYokotaBranchEntropy a = yokotaEntropy a ∧
    csvBranchEntropyYokota a < stdoutYokotaBranchEntropy a := by
  refine ⟨rfl, rfl, ?_⟩
  show yokotaEntropyPerWorkload a < yokotaEntropy a
  unfold yokotaEntropyPerWorkload yokotaEntropy branchSeqs
  obtain ⟨k, hk, hpat⟩ := h
  refine List.sum_lt_sum _ _ (fun seq _ => lineYokotaPW_le seq) ?_
  exact ⟨a.branchSeq k, List.mem_map.mpr ⟨k, hk, rfl⟩, lineYokotaPW_lt _ hpat⟩

theorem C10_csv_yokota_unweighted_witness :
    (∃ k ∈ aggPatTwice.branchSupport,
      ∃ pat ∈ (windowsM 16 (aggPatTwice.branchSeq k)).dedup,
        1 < (windowsM 16 (aggPatTwice.branchSeq k)).count pat ∧
        pat.count true ≠ 0 ∧ pat.count false ≠ 0) ∧
    csvBranchEntropyYokota aggPatTwice < stdoutYokotaBranchEntropy aggPatTwice :=
  ⟨by decide, (C10_csv_yokota_unweighted aggPatTwice (by decide)).2.2⟩

/-! ### C9 -/

theorem dedup_map_sum_perm {α M : Type} [DecidableEq α] [BEq α] [AddCommMonoid M]
    {l1 l2 : List α} (h : l1.Perm l2) (f : α → ℕ → M) :
    (l1.dedup.map (fun x => f x (l1.count x))).sum
      = (l2.dedup.map (fun x => f x (l2.count x))).sum := by
  have hm : l1.dedup.map (fun x => f x (l1.count x))
      = l1.dedup.map (fun x => f x (l2.count x)) :=
    List.map_congr_left (fun a _ => congrArg (f a) (h.countP_eq (· == a)))
  rw [hm]
  exact ((h.dedup).map (fun x => f x (l2.count x))).sum_eq

theorem addrEntropy_perm {l1 l2 : List ℕ} (h : l1.Perm l2) :
    addrEntropy l1 = addrEntropy l2 := by
  unfold addrEntropy
  rw [h.length_eq]
  exact dedup_map_sum_perm h
    (fun x c => -((c : ℝ) / (l2.length : ℝ) * Real.logb 2 ((c : ℝ) / (l2.length : ℝ))))

/-- The average linear branch entropy of an aggregate with a single branch
line. -/
theorem avgLinear_single (a : Aggregate) (k : ℕ) (hsup : a.branchSupport = [k]) :
    averageLinearBranchEntropy a
      = (if lineWindowCount (a.branchSeq k) = 0 then 0
         else lineAvgLinearNum (a.branchSeq k) / (lineWindowCount (a.branchSeq k) : ℚ)) := by
  unfold averageLinearBranchEntropy branchEntropyN branchSeqs
  rw [hsup]
  simp

/-- Claim C9 counterexample: merging the same two workers in the two possible
orders is a permutation of the worker list, yet the emitted average linear
branch entropy differs (65/136 vs 8/17): the 16-bit history windows straddle
the seam between the two workers' concatenated traces for line 7. -/
theorem C9_worker_merge_order_counterexample :
    ([wA, wB] : List Worker).Perm [wB, wA] ∧
    averageLinearBranchEntropy (mergeAll [wA, wB])
      ≠ averageLinearBranchEntropy (mergeAll [wB, wA]) := by
  constructor
  · exact List.Perm.swap wB wA []
  · have hsup1 : (mergeAll [wA, wB]).branchSupport = [7] := by decide
    have hsup2 : (mergeAll [wB, wA]).branchSupport = [7] := by decide
    have hseq1 : (mergeAll [wA, wB]).branchSeq 7
        = (true :: List.replicate 15 false) ++ List.replicate 16 true := by decide
    have hseq2 : (mergeAll [wB, wA]).branchSeq 7
        = List.replicate 16 true ++ (true :: List.replicate 15 false) := by decide
    have hc1 : lineWindowCount ((true :: List.replicate 15 false) ++ List.replicate 16 true)
        = 17 := by decide
    have hc2 : lineWindowCount (List.replicate 16 true ++ (true :: List.replicate 15 false))
        = 17 := by decide
    have hm1 : ((windowsM 16 ((true :: List.replicate 15 false) ++ List.replicate 16 true)).map
        (fun w => min (w.count true) (w.count false))).sum = 65 := by decide
    have hm2 : ((windowsM 16 (List.replicate 16 true ++ (true :: List.replicate 15 false))).map
        (fun w => min (w.count true) (w.count false))).sum = 64 := by decide
    have hn1 : lineAvgLinearNum ((true :: List.replicate 15 false) ++ List.replicate 16 true)
        = 65 / 8 := by
      rw [lineAvgLinearNum_eq_min_sum, hm1]
      norm_num
    have hn2 : lineAvgLinearNum (List.replicate 16 true ++ (true :: List.replicate 15 false))
        = 8 := by
      rw [lineAvgLinearNum_eq_min_sum, hm2]
      norm_num
    have hv1 : averageLinearBranchEntropy (mergeAll [wA, wB]) = (65 / 8) / 17 := by
      rw [avgLinear_single _ 7 hsup1, hseq1, hc1, hn1]
      norm_num
    have hv2 : averageLinearBranchEntropy (mergeAll [wB, wA]) = 8 / 17 := by
      rw [avgLinear_single _ 7 hsup2, hseq2, hc2, hn2]
      norm_num
    rw [hv1, hv2]
    norm_num

/-- Claim C9 amended: under any permutation of the order in which worker states
are merged, every metric of the report core (counts, histogram statistics,
medians, SIMD moments, footprints, 90%-coverage values) and the memory address
entropies are unchanged; only the three branch-entropy statistics are excluded
(the counterexample above shows they can change, because the 16-bit history
windows span the seams of the per-line concatenation).  Worker branch-support
lists are key sets of C++ maps, hence assumed duplicate-free. -/
theorem C9_merge_perm_invariant_amended (ws ws' : List Worker) (hperm : ws.Perm ws')
    (hnodup : ∀ w ∈ ws, w.branchSupport.Nodup) :
    kernelEndReportCore (mergeAll ws) = kernelEndReportCore (mergeAll ws') ∧
    globalMemoryAddressEntropy (mergeAll ws) = globalMemoryAddressEntropy (mergeAll ws') ∧
    (∀ nskip : ℕ, localMemoryAddressEntropy (mergeAll ws) nskip
      = localMemoryAddressEntropy (mergeAll ws') nskip) := by
  have hnodup' : ∀ w ∈ ws', w.branchSupport.Nodup :=
    fun w hw => hnodup w (hperm.symm.subset hw)
  have hmem : (mergeAll ws).memoryOps.Perm ((mergeAll ws').memoryOps) := by
    unfold mergeAll
    rw [foldl_merge_memoryOps, foldl_merge_memoryOps]
    simpa [kernelBeginAggregate] using perm_flatten_outer (hperm.map Worker.memoryOps)
  have hcomp : (mergeAll ws).computeOps.Perm ((mergeAll ws').computeOps) := by
    unfold mergeAll
    rw [foldl_merge_computeOps, foldl_merge_computeOps]
    simpa [kernelBeginAggregate] using perm_flatten_outer (hperm.map Worker.computeOps)
  have hitb : (mergeAll ws).instructionsToBarrier.Perm
      ((mergeAll ws').instructionsToBarrier) := by
    unfold mergeAll
    rw [foldl_merge_itb, foldl_merge_itb]
    simpa [kernelBeginAggregate] using
      perm_flatten_outer (hperm.map Worker.instructionsBetweenBarriers)
  have hwidth : (mergeAll ws).instructionWidth.Perm ((mergeAll ws').instructionWidth) := by
    unfold mergeAll
    rw [foldl_merge_width, foldl_merge_width]
    simpa [kernelBeginAggregate] using perm_flatten_outer (hperm.map Worker.instructionWidth)
  have hipt : (mergeAll ws).instructionsPerWorkitem.Perm
      ((mergeAll ws').instructionsPerWorkitem) := by
    unfold mergeAll
    rw [foldl_merge_ipt, foldl_merge_ipt]
    simpa [kernelBeginAggregate] using
      perm_flatten_outer (hperm.map Worker.instructionsPerWorkitem)
  have hibls : (mergeAll ws).instructionsBetweenLoadOrStore.Perm
      ((mergeAll ws').instructionsBetweenLoadOrStore) := by
    unfold mergeAll
    rw [foldl_merge_ibls, foldl_merge_ibls]
    simpa [kernelBeginAggregate] using
      perm_flatten_outer (hperm.map Worker.instructionsBetweenLoadOrStore)
  have hload : (mergeAll ws).loadInstructionLabels.Perm
      ((mergeAll ws').loadInstructionLabels) := by
    unfold mergeAll
    rw [foldl_merge_loadLabels, foldl_merge_loadLabels]
    simpa [kernelBeginAggregate] using
      perm_flatten_outer (hperm.map Worker.loadInstructionLabels)
  have hstore : (mergeAll ws).storeInstructionLabels.Perm
      ((mergeAll ws').storeInstructionLabels) := by
    unfold mergeAll
    rw [foldl_merge_storeLabels, foldl_merge_storeLabels]
    simpa [kernelBeginAggregate] using
      perm_flatten_outer (hperm.map Worker.storeInstructionLabels)
  have hthreads : (mergeAll ws).threadsInvoked = (mergeAll ws').threadsInvoked := by
    unfold mergeAll
    rw [foldl_merge_threads, foldl_merge_threads, (hperm.map Worker.threadsInvoked).sum_eq]
  have hbar : (mergeAll ws).barriersHit = (mergeAll ws').barriersHit := by
    unfold mergeAll
    rw [foldl_merge_barriers, foldl_merge_barriers, (hperm.map Worker.barriersHit).sum_eq]
  have hglobal : (mergeAll ws).globalMemAccess = (mergeAll ws').globalMemAccess := by
    unfold mergeAll
    rw [foldl_merge_global, foldl_merge_global, (hperm.map Worker.globalMemAccess).sum_eq]
  have hlocal : (mergeAll ws).localMemAccess = (mergeAll ws').localMemAccess := by
    unfold mergeAll
    rw [foldl_merge_local, foldl_merge_local, (hperm.map Worker.localMemAccess).sum_eq]
  have hconstant : (mergeAll ws).constantMemAccess = (mergeAll ws').constantMemAccess := by
    unfold mergeAll
    rw [foldl_merge_constant, foldl_merge_constant,
      (hperm.map Worker.constantMemAccess).sum_eq]
  have hseqlen : ∀ k, ((mergeAll ws).branchSeq k).length
      = ((mergeAll ws').branchSeq k).length := by
    intro k
    unfold mergeAll
    rw [foldl_merge_branchSeq, foldl_merge_branchSeq]
    have h := (perm_flatten_outer (hperm.map (branchContrib k))).length_eq
    simp [kernelBeginAggregate, h]
  have hnod1 : (mergeAll ws).branchSupport.Nodup :=
    foldl_merge_support_nodup ws kernelBeginAggregate List.nodup_nil hnodup
  have hnod2 : (mergeAll ws').branchSupport.Nodup :=
    foldl_merge_support_nodup ws' kernelBeginAggregate List.nodup_nil hnodup'
  have hsup : (mergeAll ws).branchSupport.Perm ((mergeAll ws').branchSupport) := by
    rw [List.perm_ext_iff_of_nodup hnod1 hnod2]
    intro k
    unfold mergeAll
    rw [foldl_merge_support_mem, foldl_merge_support_mem]
    constructor
    · rintro (hfalse | ⟨w, hw, hkw⟩)
      · exact absurd hfalse (by simp [kernelBeginAggregate])
      · exact Or.inr ⟨w, hperm.subset hw, hkw⟩
    · rintro (hfalse | ⟨w, hw, hkw⟩)
      · exact absurd hfalse (by simp [kernelBeginAggregate])
      · exact Or.inr ⟨w, hperm.symm.subset hw, hkw⟩
  have hlens : ((branchSeqs (mergeAll ws)).map List.length).Perm
      ((branchSeqs (mergeAll ws')).map List.length) := by
    unfold branchSeqs
    rw [List.map_map, List.map_map]
    have hfun : (List.length ∘ (mergeAll ws).branchSeq)
        = (List.length ∘ (mergeAll ws').branchSeq) := funext (fun k => hseqlen k)
    rw [hfun]
    exact hsup.map _
  have htic : totalInstructionCount (mergeAll ws) = totalInstructionCount (mergeAll ws') := by
    unfold totalInstructionCount
    exact hcomp.length_eq
  have hmajor : majorOperations (mergeAll ws) = majorOperations (mergeAll ws') := by
    unfold majorOperations totalInstructionCount
    rw [sortedCountsDesc_perm hcomp, hcomp.length_eq]
  have hfreedom : freedomToReorder (mergeAll ws) = freedomToReorder (mergeAll ws') := by
    unfold freedomToReorder
    rw [hibls.sum_eq, hibls.length_eq]
  have hpressure : resourcePressure (mergeAll ws) = resourcePressure (mergeAll ws') := by
    unfold resourcePressure
    rw [hload.length_eq, hstore.length_eq, hthreads]
  have hgran : granularity (mergeAll ws) = granularity (mergeAll ws') := by
    unfold granularity
    rw [hthreads]
  have hbpi : barriersPerInstruction (mergeAll ws)
      = barriersPerInstruction (mergeAll ws') := by
    unfold barriersPerInstruction totalInstructionCount
    rw [hbar, hthreads, hcomp.length_eq]
  have hsimdsum : simdSum (mergeAll ws) = simdSum (mergeAll ws') := by
    unfold simdSum
    exact hwidth.sum_eq
  have hsimdnum : simdNum (mergeAll ws) = simdNum (mergeAll ws') := by
    unfold simdNum
    exact hwidth.length_eq
  have hsimdmean : simdMean (mergeAll ws) = simdMean (mergeAll ws') := by
    unfold simdMean
    rw [hsimdsum, hsimdnum]
  have hsimdvar : simdVariance (mergeAll ws) = simdVariance (mergeAll ws') := by
    unfold simdVariance
    rw [hsimdsum, hsimdnum]
    rw [dedup_map_sum_perm hwidth (fun k c =>
      (c : ℚ) * ((k : ℚ) - (simdSum (mergeAll ws') : ℚ) / (simdNum (mergeAll ws') : ℚ)) ^ 2)]
  have hipo : instructionsPerOperand (mergeAll ws)
      = instructionsPerOperand (mergeAll ws') := by
    unfold instructionsPerOperand totalInstructionCount
    rw [hcomp.length_eq, hsimdsum]
  have hfoot : totalMemoryFootprint (mergeAll ws) = totalMemoryFootprint (mergeAll ws') := by
    unfold totalMemoryFootprint
    exact (hmem.dedup).length_eq
  have hacc : memoryAccessCount (mergeAll ws) = memoryAccessCount (mergeAll ws') := by
    unfold memoryAccessCount
    rw [sortedCountsDesc_perm hmem]
  have hninetyF : ninetyPctFootprint (mergeAll ws) = ninetyPctFootprint (mergeAll ws') := by
    unfold ninetyPctFootprint memoryAccessCount
    rw [sortedCountsDesc_perm hmem]
  have hrelL : relativeLocalUsage (mergeAll ws) = relativeLocalUsage (mergeAll ws') := by
    unfold relativeLocalUsage
    rw [hglobal, hlocal, hconstant]
  have hrelC : relativeConstantUsage (mergeAll ws)
      = relativeConstantUsage (mergeAll ws') := by
    unfold relativeConstantUsage
    rw [hglobal, hlocal, hconstant]
  have huniqBr : uniqueBranchInstructions (mergeAll ws)
      = uniqueBranchInstructions (mergeAll ws') := by
    unfold uniqueBranchInstructions
    exact hsup.length_eq
  have hninetyBr : ninetyPctBranches (mergeAll ws) = ninetyPctBranches (mergeAll ws') := by
    unfold ninetyPctBranches totalBranchOpCount
    rw [sortedDesc_perm hlens, hlens.sum_eq]
  have hfields : reportFields (mergeAll ws) = reportFields (mergeAll ws') := by
    unfold reportFields
    rw [hmajor, htic, hfreedom, hpressure, hthreads, hgran, hbar, minimum_perm hitb,
      maximum_perm hitb, medianCpp_perm hitb, hbpi, minimum_perm hipt, maximum_perm hipt,
      medianCpp_perm hipt, minimum_perm hwidth.dedup, maximum_perm hwidth.dedup, hsimdsum,
      hsimdmean, hsimdvar, hipo, hfoot, hacc, hninetyF, hglobal, hlocal, hconstant, hrelL,
      hrelC, huniqBr, hninetyBr]
  have hdef : reportDefined (mergeAll ws) = reportDefined (mergeAll ws') := by
    unfold reportDefined
    rw [isEmpty_perm hitb, isEmpty_perm hipt, isEmpty_perm hwidth]
  refine ⟨?_, ?_, ?_⟩
  · unfold kernelEndReportCore
    rw [hdef, hfields]
  · unfold globalMemoryAddressEntropy
    exact addrEntropy_perm hmem
  · intro nskip
    unfold localMemoryAddressEntropy
    exact addrEntropy_perm (hmem.map (fun x => x >>> nskip))

theorem C9_merge_perm_invariant_amended_witness :
    ([wA, wB] : List Worker).Perm [wB, wA] ∧
    (∀ w ∈ ([wA, wB] : List Worker), w.branchSupport.Nodup) ∧
    kernelEndReportCore (mergeAll [wA, wB]) = kernelEndReportCore (mergeAll [wB, wA]) :=
  ⟨List.Perm.swap wB wA [],
   fun w hw => by
     rcases List.mem_cons.mp hw with rfl | hw2
     · decide
     · rcases List.mem_cons.mp hw2 with rfl | h3
       · decide
       · simp at h3,
   (C9_merge_perm_invariant_amended [wA, wB] [wB, wA] (List.Perm.swap wB wA [])
     (fun w hw => by
       rcases List.mem_cons.mp hw with rfl | hw2
       · decide
       · rcases List.mem_cons.mp hw2 with rfl | h3
         · decide
         · simp at h3)).1⟩
